import Mathlib

open BigOperators

namespace Site37

/-! Shallow embedding of the token-list frontend (zero-given/site37).

Numeric JavaScript values are modelled as rationals (`ℚ`), JS `Map`/object
stores as association lists, and the lazily JSON-parsed payloads as
`Option` values (`none` = malformed payload).  Each definition is a direct
translation of the corresponding source function, named after it. -/

/-- Risk classification attached to every stored token record. -/
inductive RiskLevel where
  | safe
  | warning
  | danger
  deriving DecidableEq, Repr

/-- One entry of the `gpLpHolders` JSON payload (`{percent, is_locked}`). -/
structure LpHolder where
  percent : ℚ
  is_locked : Bool
  deriving DecidableEq, Repr

/-- The fields of a token record that the core pipeline reads
(`src/types` `Token`, restricted to the fields used by the embedded code). -/
structure Token where
  tokenAddress : String
  tokenName : String
  tokenSymbol : String
  tokenAgeHours : ℚ
  gpHolderCount : ℚ
  hpLiquidityAmount : ℚ
  gpBuyTax : ℚ
  gpSellTax : ℚ
  gpOwnerAddress : String
  gpLpHolders : Option (List LpHolder)
  hpIsHoneypot : Bool
  gpIsOpenSource : Bool
  gpCanTakeBackOwnership : Bool
  gpHiddenOwner : Bool
  gpOwnerChangeBalance : Bool
  gpIsAirdropScam : Bool
  gpHoneypotWithSameCreator : Bool
  gpFakeToken : Bool
  gpIsProxy : Bool
  gpIsMintable : Bool
  gpSlippageModifiable : Bool
  gpPersonalSlippageModifiable : Bool
  gpCannotSellAll : Bool
  gpTradingCooldown : Bool
  gpTransferPausable : Bool
  riskLevel : RiskLevel
  deriving DecidableEq, Repr

/-- A benign record used to build concrete test tokens: every flag clear,
open source, renounced owner, zero taxes. -/
def baseToken : Token where
  tokenAddress := "0xa"
  tokenName := "Alpha"
  tokenSymbol := "ALP"
  tokenAgeHours := 1
  gpHolderCount := 100
  hpLiquidityAmount := 1000
  gpBuyTax := 0
  gpSellTax := 0
  gpOwnerAddress := "0x0000000000000000000000000000000000000000"
  gpLpHolders := some []
  hpIsHoneypot := false
  gpIsOpenSource := true
  gpCanTakeBackOwnership := false
  gpHiddenOwner := false
  gpOwnerChangeBalance := false
  gpIsAirdropScam := false
  gpHoneypotWithSameCreator := false
  gpFakeToken := false
  gpIsProxy := false
  gpIsMintable := false
  gpSlippageModifiable := false
  gpPersonalSlippageModifiable := false
  gpCannotSellAll := false
  gpTradingCooldown := false
  gpTransferPausable := false
  riskLevel := .safe

/-- Risk-level computation of the `BATCH_PROCESSED` handler (`App.tsx`):
honeypot or any of the second flag group yields `danger`, the third flag
group (or a buy/sell tax above 10) yields `warning`, otherwise `safe`. -/
def computeRiskLevel (t : Token) : RiskLevel :=
  if t.hpIsHoneypot then .danger
  else if t.gpCanTakeBackOwnership || t.gpHiddenOwner || t.gpOwnerChangeBalance ||
      t.gpIsAirdropScam || t.gpHoneypotWithSameCreator || t.gpFakeToken ||
      !t.gpIsOpenSource then .danger
  else if t.gpIsProxy || t.gpIsMintable || t.gpSlippageModifiable ||
      t.gpPersonalSlippageModifiable || t.gpCannotSellAll || t.gpTradingCooldown ||
      t.gpTransferPausable ||
      (decide (t.gpBuyTax > 10) || decide (t.gpSellTax > 10)) then .warning
  else .safe

/-- The record actually installed by the batch handler: the incoming token
with its `riskLevel` recomputed (`processedToken` in `App.tsx`). -/
def processToken (t : Token) : Token :=
  { t with riskLevel := computeRiskLevel t }

/-- The token store: the JS object `tokens.items`, an insertion-ordered
mapping from address to record. -/
abbrev Store : Type := List (String × Token)

/-- JS object assignment `state.items[k] = v`: replace in place if the key
exists, otherwise append. -/
def upsert (s : Store) (k : String) (v : Token) : Store :=
  match s with
  | [] => [(k, v)]
  | (k₁, v₁) :: rest => if k₁ = k then (k, v) :: rest else (k₁, v₁) :: upsert rest k v

/-- Read `state.items[k]`. -/
def lookupAddr (s : Store) (k : String) : Option Token :=
  match s with
  | [] => none
  | (k₁, v₁) :: rest => if k₁ = k then some v₁ else lookupAddr rest k

/-- `Object.keys(state.items)` in insertion order. -/
def storeKeys (s : Store) : List String :=
  s.map Prod.fst

/-- The `BATCH_PROCESSED` handler: for each record of the batch in order,
compute the risk level and install the complete replacement record. -/
def merge (s : Store) (batch : List Token) : Store :=
  batch.foldl (fun st t => upsert st t.tokenAddress (processToken t)) s

/-- The last record of `batch` whose address is `k`, if any. -/
def lastWith (batch : List Token) (k : String) : Option Token :=
  match batch with
  | [] => none
  | t :: rest =>
    match lastWith rest k with
    | some u => some u
    | none => if t.tokenAddress = k then some t else none

/-- The persisted filter configuration (`FilterState` in `src/types`). -/
structure FilterState where
  minHolders : ℚ
  minLiquidity : ℚ
  hideHoneypots : Bool
  showOnlyHoneypots : Bool
  hideDanger : Bool
  hideWarning : Bool
  showOnlySafe : Bool
  hideNotRenounced : Bool
  hideUnlockedLiquidity : Bool
  searchQuery : String
  sortBy : String
  sortDirection : String
  maxRecords : ℕ
  hideStagnantHolders : Bool
  hideStagnantLiquidity : Bool
  stagnantRecordCount : ℕ
  deriving DecidableEq, Repr

/-- The default filter configuration (`getSavedFilters` fallback). -/
def defaultFilters : FilterState where
  minHolders := 0
  minLiquidity := 0
  hideHoneypots := false
  showOnlyHoneypots := false
  hideDanger := false
  hideWarning := false
  showOnlySafe := false
  hideNotRenounced := false
  hideUnlockedLiquidity := false
  searchQuery := ""
  sortBy := "age"
  sortDirection := "desc"
  maxRecords := 50
  hideStagnantHolders := false
  hideStagnantLiquidity := false
  stagnantRecordCount := 10

/-- The renounced-ownership sentinel address. -/
def zeroAddress : String := "0x0000000000000000000000000000000000000000"

/-- `lpHolders.reduce((acc, holder) => acc + (holder.is_locked ? Number(holder.percent) * 100 : 0), 0)`. -/
def totalLockedPercent (hs : List LpHolder) : ℚ :=
  hs.foldl (fun acc h => acc + (if h.is_locked then h.percent * 100 else 0)) 0

/-- JS `hay.includes(sub)` on character lists. -/
def hasSubstr (hay sub : List Char) : Bool :=
  match hay with
  | [] => sub.isEmpty
  | _ :: rest => sub.isPrefixOf hay || hasSubstr rest sub

/-- The search-query predicate of `filteredTokens`: case-insensitive
substring match over name, symbol and address. -/
def matchesSearch (t : Token) (query : String) : Bool :=
  let q := query.toLower.data
  hasSubstr t.tokenName.toLower.data q ||
    hasSubstr t.tokenSymbol.toLower.data q ||
    hasSubstr t.tokenAddress.toLower.data q

/-- The filter predicate of `filteredTokens` (`TokenEventsList.tsx`): every
early `return false` of the source callback becomes a `false` branch; the
search query, when present, is the final returned predicate. -/
def passesFilters (f : FilterState) (t : Token) : Bool :=
  if f.hideHoneypots && t.hpIsHoneypot then false
  else if f.showOnlyHoneypots && !t.hpIsHoneypot then false
  else if f.hideDanger && decide (t.riskLevel = .danger) then false
  else if f.hideWarning && decide (t.riskLevel = .warning) then false
  else if f.showOnlySafe && !decide (t.riskLevel = .safe) then false
  else if f.hideNotRenounced && !decide (t.gpOwnerAddress = zeroAddress) then false
  else if f.hideUnlockedLiquidity &&
      (match t.gpLpHolders with
       | none => true
       | some hs => decide (totalLockedPercent hs < 90)) then false
  else if decide (f.minHolders > 0) && decide (t.gpHolderCount < f.minHolders) then false
  else if decide (f.minLiquidity > 0) && decide (t.hpLiquidityAmount < f.minLiquidity) then false
  else if !decide (f.searchQuery = "") then matchesSearch t f.searchQuery
  else true

/-- Step 1 of `filteredTokens`: keep the records passing every filter. -/
def filterStage (f : FilterState) (tokens : List Token) : List Token :=
  tokens.filter (passesFilters f)

/-- `getRiskScore` (`TokenEventsList.tsx`): safe ↦ 2, warning ↦ 1, danger ↦ 0. -/
def getRiskScore (t : Token) : ℚ :=
  match t.riskLevel with
  | .safe => 2
  | .warning => 1
  | .danger => 0

/-- JS `s.replace(sub, '')` restricted to removal: drop the first occurrence
of `sub`. -/
def removeFirstOcc (sub : List Char) : List Char → List Char
  | [] => []
  | c :: rest =>
    if sub.isPrefixOf (c :: rest) then (c :: rest).drop sub.length
    else c :: removeFirstOcc sub rest

/-- Sort direction of the `filteredTokens` comparator: `1` for an `_asc`
sort key, else `-1` (descending default). -/
def sortDir (sortBy : String) : ℚ :=
  if sortBy.endsWith "_asc" then 1 else -1

/-- Sort field name of the `filteredTokens` comparator: the `sortBy` string
with a first `_asc` removed when it ends with `_asc`. -/
def sortFieldName (sortBy : String) : String :=
  if sortBy.endsWith "_asc" then String.mk (removeFirstOcc "_asc".data sortBy.data)
  else sortBy

/-- The comparator passed to `result.sort` in `filteredTokens`; the numeric
result has the JS meaning (negative: `a` first, positive: `b` first). -/
def compareTokens (sortBy : String) (a b : Token) : ℚ :=
  let dir := sortDir sortBy
  let field := sortFieldName sortBy
  if field = "age" then (b.tokenAgeHours - a.tokenAgeHours) * dir
  else if field = "holders" then (a.gpHolderCount - b.gpHolderCount) * dir
  else if field = "liquidity" then (a.hpLiquidityAmount - b.hpLiquidityAmount) * dir
  else if field = "safetyScore" then (getRiskScore a - getRiskScore b) * dir
  else 0

/-- Stable insertion step: `x` (earlier in the input) passes `y` only when
the comparator strictly orders `y` before `x`. -/
def insertSorted {α : Type} (cmp : α → α → ℚ) (x : α) : List α → List α
  | [] => [x]
  | y :: ys => if cmp x y > 0 then y :: insertSorted cmp x ys else x :: y :: ys

/-- Stable sort by a JS comparator, modelling `Array.prototype.sort` (stable
per the ECMAScript specification). -/
def stableSort {α : Type} (cmp : α → α → ℚ) : List α → List α
  | [] => []
  | x :: xs => insertSorted cmp x (stableSort cmp xs)

/-- The full `filteredTokens` memo: filter, stable sort, truncate to
`maxRecords`. -/
def projectTokens (f : FilterState) (tokens : List Token) : List Token :=
  (stableSort (compareTokens f.sortBy) (filterStage f tokens)).take f.maxRecords

/-- The numeric key under the selected sort field and direction, chosen so
that `compareTokens sortBy a b = sortKey sortBy a - sortKey sortBy b`. -/
def sortKey (sortBy : String) (t : Token) : ℚ :=
  let dir := sortDir sortBy
  let field := sortFieldName sortBy
  if field = "age" then -t.tokenAgeHours * dir
  else if field = "holders" then t.gpHolderCount * dir
  else if field = "liquidity" then t.hpLiquidityAmount * dir
  else if field = "safetyScore" then getRiskScore t * dir
  else 0

/-- One point of a token's history series. -/
structure HistoryPoint where
  timestamp : ℚ
  totalLiquidity : ℚ
  holderCount : ℚ
  deriving DecidableEq, Repr

/-- The metric selector of the trend calculators. -/
inductive MetricKind where
  | liquidity
  | holders
  deriving DecidableEq, Repr

/-- Metric extraction (`type === 'liquidity' ? record.totalLiquidity : record.holderCount`). -/
def metricValue (m : MetricKind) (p : HistoryPoint) : ℚ :=
  match m with
  | .liquidity => p.totalLiquidity
  | .holders => p.holderCount

/-- The trend classification. -/
inductive Trend where
  | up
  | down
  | stagnant
  deriving DecidableEq, Repr

/-- `[...history].sort((a, b) => a.timestamp - b.timestamp)`. -/
def sortByTimestamp (history : List HistoryPoint) : List HistoryPoint :=
  stableSort (fun a b => a.timestamp - b.timestamp) history

/-- The ordinary-least-squares slope of `ys` against the point index, as
computed by `calculateTrend` and the chart `trendInfo` memos: means of the
index column and of `ys`, then `Σ (x-x̄)(y-ȳ) / Σ (x-x̄)²` with the reduce
with index modelled as a sum over `Finset.range`. -/
def olsSlope (ys : List ℚ) : ℚ :=
  let n := ys.length
  let xMean := (∑ i in Finset.range n, (i : ℚ)) / n
  let yMean := (∑ i in Finset.range n, ys.getD i 0) / n
  let num := ∑ i in Finset.range n, ((i : ℚ) - xMean) * (ys.getD i 0 - yMean)
  let den := ∑ i in Finset.range n, ((i : ℚ) - xMean) ^ 2
  num / den

/-- `calculateTrend` (`TokenEventsList.tsx`): fewer than two points gives
`stagnant`; otherwise sort by timestamp, regress the metric against the
index, and classify the slope against the `0.05` threshold. -/
def calculateTrend (history : List HistoryPoint) (m : MetricKind) : Trend :=
  if history.length < 2 then .stagnant
  else
    let sorted := sortByTimestamp history
    let slope := olsSlope (sorted.map (metricValue m))
    if |slope| < 1/20 then .stagnant
    else if slope > 0 then .up
    else .down

/-- The trend calculator as the specification states it: no explicit sort
(the series is already time-ordered), index-as-x OLS, `|slope| < 0.05 ⇒
stagnant`, else sign decides. -/
def specTrend (history : List HistoryPoint) (m : MetricKind) : Trend :=
  if history.length < 2 then .stagnant
  else
    let slope := olsSlope (history.map (metricValue m))
    if |slope| < 1/20 then .stagnant
    else if slope > 0 then .up
    else .down

/-- The sampling loop of the chart `dataMemo` (`TokenLiquidityChart.tsx`):
walk the sorted points carrying `lastTimestamp` (initially `0`), skip
falsy timestamps, and keep a point only when it is at least
`MIN_DATA_POINT_DISTANCE = 60000` ms after the last kept one.  (In this
embedding every point carries both metrics, so the metric-null skip of the
source cannot fire.) -/
def samplePoints : List HistoryPoint → ℚ → List HistoryPoint
  | [], _ => []
  | p :: rest, lastTimestamp =>
    if p.timestamp = 0 then samplePoints rest lastTimestamp
    else if p.timestamp - lastTimestamp ≥ 60000 then p :: samplePoints rest p.timestamp
    else samplePoints rest lastTimestamp

/-- The `MAX_DATA_POINTS = 200` reduction of the chart `dataMemo`: when over
the cap, keep every `step`-th point with `step = ceil(length / 200)`. -/
def reducePoints (l : List HistoryPoint) : List HistoryPoint :=
  if l.length > 200 then
    let step := (l.length + 199) / 200
    ((l.enum).filter (fun p => p.1 % step = 0)).map Prod.snd
  else l

/-- The chart `dataMemo`: sort, sample, reduce, and project each point to
`{x: floor(timestamp / 1000), y: metric}`. -/
def chartData (history : List HistoryPoint) (m : MetricKind) : List (ℤ × ℚ) :=
  (reducePoints (samplePoints (sortByTimestamp history) 0)).map
    (fun p => (Int.floor (p.timestamp / 1000), metricValue m p))

/-- The chart `trendInfo` memo: fewer than two processed points gives
`stagnant`; otherwise the same index-as-x regression, classified as `up`
when `slope > 0.05` and `down` when `slope < -0.05`. -/
def chartTrendDirection (history : List HistoryPoint) (m : MetricKind) : Trend :=
  let data := chartData history m
  if data.length < 2 then .stagnant
  else
    let slope := olsSlope (data.map Prod.snd)
    if slope > 1/20 then .up
    else if slope < -(1/20) then .down
    else .stagnant

/-- The UI-session state of `TokenEventsList` that the virtualization code
reads and writes: the current filtered sequence, the expansion set, the
measured-height map (row index to pixel height) and the scroll offset. -/
structure UIState where
  tokens : List Token
  filters : FilterState
  persistedFilters : Option FilterState
  expanded : List String
  measuredHeights : List (ℕ × ℚ)
  scrollTop : ℚ
  deriving DecidableEq, Repr

/-- Read the measured-height map at a row index. -/
def lookupHeight (m : List (ℕ × ℚ)) (i : ℕ) : Option ℚ :=
  match m with
  | [] => none
  | (j, h) :: rest => if j = i then some h else lookupHeight rest i

/-- `Map.delete(i)` on the measured-height map. -/
def removeHeight (m : List (ℕ × ℚ)) (i : ℕ) : List (ℕ × ℚ) :=
  m.filter (fun p => !decide (p.1 = i))

/-- `toggleTokenExpansion`: remove the address when present, add it
otherwise. -/
def toggleExpansion (expanded : List String) (addr : String) : List String :=
  if addr ∈ expanded then expanded.filter (fun a => !decide (a = addr))
  else addr :: expanded

/-- `estimateSize` (`TokenEventsList.tsx`): a missing row estimates the
collapsed height 42; a truthy measured height wins; otherwise 800 for an
expanded row and 42 for a collapsed one. -/
def estimateSize (st : UIState) (index : ℕ) : ℚ :=
  match st.tokens.get? index with
  | none => 42
  | some token =>
    match lookupHeight st.measuredHeights index with
    | some h => if h = 0 then (if token.tokenAddress ∈ st.expanded then 800 else 42) else h
    | none => if token.tokenAddress ∈ st.expanded then 800 else 42

/-- Cumulative start offset of row `i`: the sum of the estimated sizes of
the rows before it (the virtualizer's layout pass). -/
def startOffset (st : UIState) (i : ℕ) : ℚ :=
  ∑ k in Finset.range i, estimateSize st k

/-- Modelled from the spec: the visible window of the virtualization
engine — the row indices whose `[start, start + size)` interval intersects
the viewport `[scrollTop, scrollTop + viewportHeight)`.  (The window
computation itself lives in the third-party virtualizer, outside `src/`.) -/
def visibleRows (st : UIState) (viewportHeight : ℚ) : List ℕ :=
  (List.range st.tokens.length).filter
    (fun i => decide (startOffset st i < st.scrollTop + viewportHeight) &&
      decide (st.scrollTop < startOffset st i + estimateSize st i))

/-- `handleTokenClick` (`TokenEventsList.tsx`): the current scroll offset is
read but never reapplied; the expansion set is toggled, the clicked row's
measured height is dropped, and `scrollToIndex(index, {align: 'start'})`
sets the scroll offset to the clicked row's start offset in the new
layout.  A click on an address outside the filtered list leaves the
heights and the offset unchanged (`index = -1`). -/
def handleTokenClick (st : UIState) (addr : String) : UIState :=
  let expanded := toggleExpansion st.expanded addr
  let index := st.tokens.findIdx? (fun t => decide (t.tokenAddress = addr))
  match index with
  | none => { st with expanded := expanded }
  | some i =>
    let st₁ := { st with expanded := expanded,
                         measuredHeights := removeHeight st.measuredHeights i }
    { st₁ with scrollTop := startOffset st₁ i }

/-- `updateFilters` (`TokenEventsList.tsx`): apply the update, persist the
new filter state, force the scroll offset to the top and clear every
measured height. -/
def updateFilters (st : UIState) (upd : FilterState → FilterState) : UIState :=
  let updated := upd st.filters
  { st with filters := updated,
            persistedFilters := some updated,
            scrollTop := 0,
            measuredHeights := [] }

/-- The application-level state touched by the worker message handler
(`App.tsx`). -/
structure AppState where
  items : Store
  isConnected : Bool
  connectionError : Option String
  isLoading : Bool
  hasReceivedInitialTokens : Bool

/-- The messages the worker posts to the app. -/
inductive WorkerMsg where
  | connectionStatus (connected : Bool) (error : Option String)
  | batchProcessed (records : List Token)

/-- The `wsWorker.onmessage` handler (`App.tsx`): a status message updates
the connection flags and clears the store exactly on a connected → not
connected transition; a batch message merges the records and marks the
initial load done. -/
def appStep (s : AppState) (m : WorkerMsg) : AppState :=
  match m with
  | .connectionStatus connected error =>
    let wasConnected := s.isConnected
    let s₁ := { s with isConnected := connected, connectionError := error }
    if wasConnected && !connected then
      { s₁ with items := [], isLoading := true, hasReceivedInitialTokens := false }
    else s₁
  | .batchProcessed records =>
    { s with items := merge s.items records,
             hasReceivedInitialTokens := true,
             isLoading := false }

/-- The risk classification exactly as claim C1 words it: honeypot flag or
an ownership-abuse signal gives `danger`; a proxy, mintable, high-tax
(buy or sell tax above 10) or slippage-mutable signal gives `warning`;
otherwise `safe`. -/
def claimRiskLevel (t : Token) : RiskLevel :=
  if t.hpIsHoneypot || t.gpCanTakeBackOwnership || t.gpHiddenOwner ||
      t.gpOwnerChangeBalance then .danger
  else if t.gpIsProxy || t.gpIsMintable ||
      (decide (t.gpBuyTax > 10) || decide (t.gpSellTax > 10)) ||
      t.gpSlippageModifiable || t.gpPersonalSlippageModifiable then .warning
  else .safe

/-- The amended fixed-precedence classification: the danger tier further
covers the airdrop-scam, same-creator-honeypot, fake-token and
not-open-source signals, and the warning tier further covers the
cannot-sell-all, trading-cooldown and transfer-pausable signals. -/
def amendedRiskLevel (t : Token) : RiskLevel :=
  if t.hpIsHoneypot || t.gpCanTakeBackOwnership || t.gpHiddenOwner ||
      t.gpOwnerChangeBalance || t.gpIsAirdropScam || t.gpHoneypotWithSameCreator ||
      t.gpFakeToken || !t.gpIsOpenSource then .danger
  else if t.gpIsProxy || t.gpIsMintable || t.gpSlippageModifiable ||
      t.gpPersonalSlippageModifiable || t.gpCannotSellAll || t.gpTradingCooldown ||
      t.gpTransferPausable ||
      (decide (t.gpBuyTax > 10) || decide (t.gpSellTax > 10)) then .warning
  else .safe

/-- The address list produced by folding a batch over an existing key list:
an address already present keeps the list, a new one is appended. -/
def mergeAddrs (ks : List String) (b : List Token) : List String :=
  b.foldl (fun ks t => if t.tokenAddress ∈ ks then ks else ks ++ [t.tokenAddress]) ks

/-- C1 counterexample token: every signal clear except the trading-cooldown
flag, which is none of the claim's listed danger or warning signals. -/
def cexRiskToken : Token := { baseToken with gpTradingCooldown := true }

/-- C3 example series from the specification: holders 100, 150, 200. -/
def exHistory : List HistoryPoint := [⟨0, 0, 100⟩, ⟨1, 0, 150⟩, ⟨2, 0, 200⟩]

/-- C6 counterexample series: strictly increasing liquidity 0, 1/100. -/
def smallIncHistory : List HistoryPoint := [⟨0, 0, 0⟩, ⟨1, 1/100, 1/100⟩]

/-- C10 counterexample series: two valid points only 30 seconds apart. -/
def closeGapHistory : List HistoryPoint := [⟨60000, 0, 0⟩, ⟨90000, 100, 100⟩]

/-- C10 (amended) witness series: two valid points a full minute apart. -/
def wideGapHistory : List HistoryPoint := [⟨60000, 0, 100⟩, ⟨120000, 0, 200⟩]

/-- C7 counterexample state: three collapsed rows of height 42, scrolled to
offset 84 with a 42-pixel viewport, so only row 2 is visible and row 0 is
fully above the viewport. -/
def cexUIState : UIState where
  tokens := [baseToken, { baseToken with tokenAddress := "0xb", tokenName := "Beta" },
    { baseToken with tokenAddress := "0xc", tokenName := "Gamma" }]
  filters := defaultFilters
  persistedFilters := none
  expanded := []
  measuredHeights := []
  scrollTop := 84

/-- C7 counterexample helper: the state right after clicking row 0. -/
def cexUIStateAfter : UIState :=
  { cexUIState with expanded := ["0xa"], measuredHeights := [], scrollTop := 0 }

theorem storeKeys_cons (k₁ : String) (v₁ : Token) (rest : Store) :
    storeKeys ((k₁, v₁) :: rest) = k₁ :: storeKeys rest := rfl

theorem lookupAddr_upsert_self (s : Store) (k : String) (v : Token) :
    lookupAddr (upsert s k v) k = some v := by
  induction s with
  | nil => simp [upsert, lookupAddr]
  | cons p rest ih =>
    obtain ⟨k₁, v₁⟩ := p
    by_cases h : k₁ = k <;> simp [upsert, lookupAddr, h, ih]

theorem lookupAddr_upsert_ne (s : Store) (k a : String) (v : Token) (h : a ≠ k) :
    lookupAddr (upsert s k v) a = lookupAddr s a := by
  have h' : k ≠ a := Ne.symm h
  induction s with
  | nil => simp [upsert, lookupAddr, h']
  | cons p rest ih =>
    obtain ⟨k₁, v₁⟩ := p
    by_cases hk : k₁ = k
    · subst hk
      simp [upsert, lookupAddr, h']
    · simp [upsert, lookupAddr, hk, ih]

theorem merge_cons (s : Store) (t : Token) (rest : List Token) :
    merge s (t :: rest) = merge (upsert s t.tokenAddress (processToken t)) rest := rfl

theorem lookupAddr_merge (s : Store) (b : List Token) (k : String) :
    lookupAddr (merge s b) k =
      match lastWith b k with
      | some t => some (processToken t)
      | none => lookupAddr s k := by
  induction b generalizing s with
  | nil => rfl
  | cons t rest ih =>
    rw [merge_cons, ih]
    cases h : lastWith rest k with
    | some u => simp [lastWith, h]
    | none =>
      by_cases ht : t.tokenAddress = k
      · subst ht
        simp [lastWith, h, lookupAddr_upsert_self]
      · simp [lastWith, h, ht, lookupAddr_upsert_ne s t.tokenAddress k _ (fun hh => ht hh.symm)]

theorem storeKeys_upsert (s : Store) (k : String) (v : Token) :
    storeKeys (upsert s k v) =
      if k ∈ storeKeys s then storeKeys s else storeKeys s ++ [k] := by
  induction s with
  | nil => simp [upsert, storeKeys]
  | cons p rest ih =>
    obtain ⟨k₁, v₁⟩ := p
    by_cases h : k₁ = k
    · subst h
      simp [upsert, storeKeys]
    · have h' : k ≠ k₁ := Ne.symm h
      by_cases hm : k ∈ storeKeys rest <;>
        simp [upsert, storeKeys_cons, h, h', hm, ih]

theorem mergeAddrs_cons (ks : List String) (u : Token) (rest : List Token) :
    mergeAddrs ks (u :: rest) =
      mergeAddrs (if u.tokenAddress ∈ ks then ks else ks ++ [u.tokenAddress]) rest := rfl

theorem storeKeys_merge (s : Store) (b : List Token) :
    storeKeys (merge s b) = mergeAddrs (storeKeys s) b := by
  induction b generalizing s with
  | nil => rfl
  | cons t rest ih =>
    rw [merge_cons, ih, storeKeys_upsert, mergeAddrs_cons]

theorem subset_mergeAddrs (ks : List String) (b : List Token) :
    ks ⊆ mergeAddrs ks b := by
  induction b generalizing ks with
  | nil => exact fun a h => h
  | cons t rest ih =>
    intro a ha
    rw [mergeAddrs_cons]
    by_cases h : t.tokenAddress ∈ ks
    · simpa [h] using ih ks ha
    · simpa [h] using ih (ks ++ [t.tokenAddress]) (by simp [ha])

theorem mem_mergeAddrs (ks : List String) (b : List Token) (t : Token) (ht : t ∈ b) :
    t.tokenAddress ∈ mergeAddrs ks b := by
  induction b generalizing ks with
  | nil => cases ht
  | cons u rest ih =>
    rw [mergeAddrs_cons]
    rcases List.mem_cons.1 ht with h | h
    · subst h
      apply subset_mergeAddrs
      by_cases hm : t.tokenAddress ∈ ks <;> simp [hm]
    · exact ih _ h

theorem mergeAddrs_of_all_mem (ks : List String) (b : List Token)
    (h : ∀ t ∈ b, t.tokenAddress ∈ ks) : mergeAddrs ks b = ks := by
  induction b with
  | nil => rfl
  | cons u rest ih =>
    rw [mergeAddrs_cons, if_pos (h u (by simp))]
    exact ih fun t ht => h t (by simp [ht])

theorem nodup_storeKeys_upsert (s : Store) (k : String) (v : Token)
    (h : (storeKeys s).Nodup) : (storeKeys (upsert s k v)).Nodup := by
  rw [storeKeys_upsert]
  by_cases hm : k ∈ storeKeys s
  · simpa [hm] using h
  · simp [hm, List.nodup_append, h, List.disjoint_singleton]

theorem nodup_storeKeys_merge (s : Store) (b : List Token)
    (h : (storeKeys s).Nodup) : (storeKeys (merge s b)).Nodup := by
  induction b generalizing s with
  | nil => exact h
  | cons t rest ih =>
    rw [merge_cons]
    exact ih _ (nodup_storeKeys_upsert s _ _ h)

theorem lookupAddr_eq_none (s : Store) (k : String) (h : k ∉ storeKeys s) :
    lookupAddr s k = none := by
  induction s with
  | nil => rfl
  | cons p rest ih =>
    obtain ⟨k₁, v₁⟩ := p
    simp only [storeKeys_cons, List.mem_cons, not_or] at h
    simp [lookupAddr, Ne.symm h.1, ih h.2]

theorem store_ext (s t : Store) (hs : (storeKeys s).Nodup)
    (hkeys : storeKeys s = storeKeys t)
    (hlook : ∀ k, lookupAddr s k = lookupAddr t k) : s = t := by
  induction s generalizing t with
  | nil =>
    cases t with
    | nil => rfl
    | cons q rt => simp [storeKeys] at hkeys
  | cons p rest ih =>
    obtain ⟨k, v⟩ := p
    cases t with
    | nil => simp [storeKeys] at hkeys
    | cons q rt =>
      obtain ⟨k₁, v₁⟩ := q
      simp only [storeKeys_cons, List.cons.injEq] at hkeys
      obtain ⟨rfl, hkt⟩ := hkeys
      have hv : v = v₁ := by
        have := hlook k
        simpa [lookupAddr] using this
      subst hv
      simp only [storeKeys_cons, List.nodup_cons] at hs
      have htail : rest = rt := by
        refine ih rt hs.2 hkt fun a => ?_
        by_cases ha : a = k
        · subst ha
          rw [lookupAddr_eq_none rest a hs.1, lookupAddr_eq_none rt a (hkt ▸ hs.1)]
        · have hka : ¬ k = a := fun hh => ha hh.symm
          have := hlook a
          simp only [lookupAddr, if_neg hka] at this
          exact this
      rw [htail]

theorem mem_upsert (s : Store) (k : String) (v : Token) (p : String × Token)
    (h : p ∈ upsert s k v) : p ∈ s ∨ p = (k, v) := by
  induction s with
  | nil => simpa [upsert] using h
  | cons q rest ih =>
    obtain ⟨k₁, v₁⟩ := q
    by_cases hk : k₁ = k
    · subst hk
      simp only [upsert, if_pos rfl] at h
      rcases List.mem_cons.1 h with h | h
      · exact Or.inr h
      · exact Or.inl (List.mem_cons_of_mem _ h)
    · simp only [upsert, if_neg hk] at h
      rcases List.mem_cons.1 h with h | h
      · exact Or.inl (h ▸ List.mem_cons_self _ _)
      · rcases ih h with h₁ | h₁
        · exact Or.inl (List.mem_cons_of_mem _ h₁)
        · exact Or.inr h₁

theorem mem_merge (s : Store) (b : List Token) (p : String × Token)
    (h : p ∈ merge s b) : p ∈ s ∨ ∃ t ∈ b, p = (t.tokenAddress, processToken t) := by
  induction b generalizing s with
  | nil => exact Or.inl h
  | cons t rest ih =>
    rw [merge_cons] at h
    rcases ih _ h with h₁ | ⟨u, hu, rfl⟩
    · rcases mem_upsert _ _ _ _ h₁ with h₂ | rfl
      · exact Or.inl h₂
      · exact Or.inr ⟨t, by simp, rfl⟩
    · exact Or.inr ⟨u, by simp [hu], rfl⟩

theorem amendedRiskLevel_processToken (t : Token) :
    amendedRiskLevel (processToken t) = amendedRiskLevel t := rfl

theorem computeRiskLevel_eq_amended (t : Token) :
    computeRiskLevel t = amendedRiskLevel t := by
  unfold computeRiskLevel amendedRiskLevel
  by_cases h : t.hpIsHoneypot <;> simp [h]

/-- C4: merging a batch is idempotent (a second merge of the same batch
leaves the store unchanged), the merged store keeps at most one record per
address, and an address occurring several times in one batch ends up
holding the processed form of its last occurrence. -/
theorem merge_idempotent_lastWriteWins (s : Store) (b : List Token)
    (hnd : (storeKeys s).Nodup) :
    merge (merge s b) b = merge s b ∧
    (storeKeys (merge s b)).Nodup ∧
    ∀ k t, lastWith b k = some t →
      lookupAddr (merge s b) k = some (processToken t) := by
  have hnd₁ : (storeKeys (merge s b)).Nodup := nodup_storeKeys_merge s b hnd
  refine ⟨?_, hnd₁, fun k t h => by rw [lookupAddr_merge]; simp [h]⟩
  have hnd₂ : (storeKeys (merge (merge s b) b)).Nodup := nodup_storeKeys_merge _ b hnd₁
  refine store_ext _ _ hnd₂ ?_ ?_
  · rw [storeKeys_merge (merge s b) b]
    exact mergeAddrs_of_all_mem _ b fun t ht =>
      (storeKeys_merge s b).symm ▸ mem_mergeAddrs (storeKeys s) b t ht
  · intro k
    rw [lookupAddr_merge (merge s b) b k, lookupAddr_merge s b k]
    cases h : lastWith b k <;> simp [h]

/-- C4 witness: a duplicate-address batch merged twice into the empty
store. -/
theorem merge_idempotent_lastWriteWins_witness :
    (storeKeys ([] : Store)).Nodup ∧
    (merge (merge [] [baseToken, { baseToken with tokenName := "Beta" }])
        [baseToken, { baseToken with tokenName := "Beta" }] =
      merge [] [baseToken, { baseToken with tokenName := "Beta" }] ∧
    (storeKeys (merge [] [baseToken, { baseToken with tokenName := "Beta" }])).Nodup ∧
    ∀ k t, lastWith [baseToken, { baseToken with tokenName := "Beta" }] k = some t →
      lookupAddr (merge [] [baseToken, { baseToken with tokenName := "Beta" }]) k =
        some (processToken t)) :=
  ⟨by simp [storeKeys],
   merge_idempotent_lastWriteWins [] [baseToken, { baseToken with tokenName := "Beta" }]
     (by simp [storeKeys])⟩

/-- C1 counterexample: after merging `cexRiskToken` the store holds it with
`riskLevel = warning`, while the claim's stated precedence classifies the
very same record `safe`. -/
theorem claimRiskLevel_counterexample :
    lookupAddr (merge [] [cexRiskToken]) "0xa" = some (processToken cexRiskToken) ∧
    (processToken cexRiskToken).riskLevel = .warning ∧
    claimRiskLevel (processToken cexRiskToken) = .safe := by
  refine ⟨rfl, by decide, by decide⟩

/-- C1 (amended): the riskLevel stored by a batch merge is exactly the
amended fixed-precedence classification of the record's other fields, and
this is an invariant of the store: if every record of the store satisfies
it, so does every record after any merge (never stale). -/
theorem riskLevel_amended (s : Store) (b : List Token)
    (hs : ∀ p ∈ s, Token.riskLevel p.2 = amendedRiskLevel p.2) :
    (∀ t : Token, computeRiskLevel t = amendedRiskLevel t) ∧
    ∀ p ∈ merge s b, Token.riskLevel p.2 = amendedRiskLevel p.2 := by
  refine ⟨computeRiskLevel_eq_amended, fun p hp => ?_⟩
  rcases mem_merge s b p hp with h | ⟨t, ht, rfl⟩
  · exact hs p h
  · show (processToken t).riskLevel = amendedRiskLevel (processToken t)
    rw [amendedRiskLevel_processToken]
    exact computeRiskLevel_eq_amended t

/-- C1 (amended) witness: the invariant holds after merging the
counterexample token into the empty store. -/
theorem riskLevel_amended_witness :
    (∀ p ∈ ([] : Store), Token.riskLevel p.2 = amendedRiskLevel p.2) ∧
    ((∀ t : Token, computeRiskLevel t = amendedRiskLevel t) ∧
     ∀ p ∈ merge [] [cexRiskToken], Token.riskLevel p.2 = amendedRiskLevel p.2) :=
  ⟨by simp, riskLevel_amended [] [cexRiskToken] (by simp)⟩

/-- C9: a status message reporting a lost connection empties the token
store exactly when the app was connected; when it was already
disconnected the store is left untouched. -/
theorem connectionStatus_clear (s : AppState) (e : Option String) :
    (s.isConnected = true → (appStep s (.connectionStatus false e)).items = []) ∧
    (s.isConnected = false → (appStep s (.connectionStatus false e)).items = s.items) := by
  constructor <;> intro h <;> simp [appStep, h]

/-- C9 witness: a concrete connected state is cleared and a concrete
disconnected one is preserved. -/
theorem connectionStatus_clear_witness :
    (appStep ⟨[("0xa", baseToken)], true, none, false, true⟩
        (.connectionStatus false none)).items = [] ∧
    (appStep ⟨[("0xa", baseToken)], false, none, true, false⟩
        (.connectionStatus false none)).items = [("0xa", baseToken)] :=
  ⟨(connectionStatus_clear ⟨[("0xa", baseToken)], true, none, false, true⟩ none).1 rfl,
   (connectionStatus_clear ⟨[("0xa", baseToken)], false, none, true, false⟩ none).2 rfl⟩

theorem compareTokens_eq_sortKey (sortBy : String) (a b : Token) :
    compareTokens sortBy a b = sortKey sortBy a - sortKey sortBy b := by
  unfold compareTokens sortKey
  by_cases h1 : sortFieldName sortBy = "age"
  · simp [h1]
    ring
  · by_cases h2 : sortFieldName sortBy = "holders"
    · simp [h1, h2]
      ring
    · by_cases h3 : sortFieldName sortBy = "liquidity"
      · simp [h1, h2, h3]
        ring
      · by_cases h4 : sortFieldName sortBy = "safetyScore"
        · simp [h1, h2, h3, h4]
          ring
        · simp [h1, h2, h3, h4]

theorem insertSorted_filter {α : Type} (cmp : α → α → ℚ) (key : α → ℚ)
    (hcmp : ∀ a b, cmp a b = key a - key b) (x : α) (l : List α) (q : ℚ) :
    (insertSorted cmp x l).filter (fun t => decide (key t = q)) =
      if key x = q then x :: l.filter (fun t => decide (key t = q))
      else l.filter (fun t => decide (key t = q)) := by
  induction l with
  | nil =>
    by_cases h : key x = q <;> simp [insertSorted, h]
  | cons y ys ih =>
    by_cases hgt : cmp x y > 0
    · have hlt : key y < key x := by
        have h := hcmp x y
        rw [h] at hgt
        linarith
      simp only [insertSorted, if_pos hgt]
      by_cases hx : key x = q
      · have hy : ¬ key y = q := hx ▸ ne_of_lt hlt
        simp [List.filter_cons, hy, hx, ih]
      · by_cases hy : key y = q <;> simp [List.filter_cons, hy, hx, ih]
    · simp only [insertSorted, if_neg hgt]
      by_cases hx : key x = q <;> simp [List.filter_cons, hx]

theorem stableSort_filter {α : Type} (cmp : α → α → ℚ) (key : α → ℚ)
    (hcmp : ∀ a b, cmp a b = key a - key b) (l : List α) (q : ℚ) :
    (stableSort cmp l).filter (fun t => decide (key t = q)) =
      l.filter (fun t => decide (key t = q)) := by
  induction l with
  | nil => rfl
  | cons x xs ih =>
    simp only [stableSort]
    rw [insertSorted_filter cmp key hcmp]
    by_cases hx : key x = q <;> simp [List.filter_cons, hx, ih]

theorem insertSorted_perm {α : Type} (cmp : α → α → ℚ) (x : α) (l : List α) :
    (insertSorted cmp x l).Perm (x :: l) := by
  induction l with
  | nil => exact List.Perm.refl _
  | cons y ys ih =>
    by_cases hgt : cmp x y > 0
    · simp only [insertSorted, if_pos hgt]
      exact (ih.cons y).trans (List.Perm.swap x y ys)
    · simp only [insertSorted, if_neg hgt]
      exact List.Perm.refl _

theorem stableSort_perm {α : Type} (cmp : α → α → ℚ) (l : List α) :
    (stableSort cmp l).Perm l := by
  induction l with
  | nil => exact List.Perm.refl _
  | cons x xs ih =>
    exact (insertSorted_perm cmp x (stableSort cmp xs)).trans (ih.cons x)

set_option maxHeartbeats 2000000 in
theorem passesFilters_iff (f : FilterState) (t : Token) :
    passesFilters f t = true ↔
      ((f.hideHoneypots = true → t.hpIsHoneypot = false) ∧
       (f.showOnlyHoneypots = true → t.hpIsHoneypot = true) ∧
       (f.hideDanger = true → t.riskLevel ≠ .danger) ∧
       (f.hideWarning = true → t.riskLevel ≠ .warning) ∧
       (f.showOnlySafe = true → t.riskLevel = .safe) ∧
       (f.hideNotRenounced = true → t.gpOwnerAddress = zeroAddress) ∧
       (f.hideUnlockedLiquidity = true →
         ∃ hs, t.gpLpHolders = some hs ∧ 90 ≤ totalLockedPercent hs) ∧
       (0 < f.minHolders → f.minHolders ≤ t.gpHolderCount) ∧
       (0 < f.minLiquidity → f.minLiquidity ≤ t.hpLiquidityAmount) ∧
       (f.searchQuery ≠ "" → matchesSearch t f.searchQuery = true)) := by
  rcases hlp : t.gpLpHolders with _ | hs <;>
    simp only [passesFilters, hlp] <;> split_ifs <;> simp_all

/-- C2: the projected sequence holds only store records passing every
enabled predicate, the pass predicate is exactly the conjunction of the
individual enabled predicates (honeypot toggles, risk-level toggles,
renounced-ownership, locked-liquidity, minimum thresholds and the
case-insensitive search), the output is bounded by `maxRecords`, and when
the filtered set fits the bound the output is exactly the passing records
(up to the sort's reordering). -/
theorem filteredTokens_spec (f : FilterState) (tokens : List Token) :
    (∀ t : Token, passesFilters f t = true ↔
      ((f.hideHoneypots = true → t.hpIsHoneypot = false) ∧
       (f.showOnlyHoneypots = true → t.hpIsHoneypot = true) ∧
       (f.hideDanger = true → t.riskLevel ≠ .danger) ∧
       (f.hideWarning = true → t.riskLevel ≠ .warning) ∧
       (f.showOnlySafe = true → t.riskLevel = .safe) ∧
       (f.hideNotRenounced = true → t.gpOwnerAddress = zeroAddress) ∧
       (f.hideUnlockedLiquidity = true →
         ∃ hs, t.gpLpHolders = some hs ∧ 90 ≤ totalLockedPercent hs) ∧
       (0 < f.minHolders → f.minHolders ≤ t.gpHolderCount) ∧
       (0 < f.minLiquidity → f.minLiquidity ≤ t.hpLiquidityAmount) ∧
       (f.searchQuery ≠ "" → matchesSearch t f.searchQuery = true))) ∧
    (∀ t ∈ projectTokens f tokens, t ∈ tokens ∧ passesFilters f t = true) ∧
    (projectTokens f tokens).length ≤ f.maxRecords ∧
    ((filterStage f tokens).length ≤ f.maxRecords →
      (projectTokens f tokens).Perm (filterStage f tokens)) := by
  refine ⟨passesFilters_iff f, ?_, ?_, ?_⟩
  · intro t ht
    simp only [projectTokens] at ht
    have h1 := List.mem_of_mem_take ht
    have h2 : t ∈ filterStage f tokens :=
      ((stableSort_perm (compareTokens f.sortBy) (filterStage f tokens)).mem_iff).1 h1
    simp only [filterStage] at h2
    exact (List.mem_filter.1 h2).imp id (fun h => h)
  · simp only [projectTokens]
    rw [List.length_take]
    exact min_le_left _ _
  · intro hlen
    simp only [projectTokens]
    rw [List.take_of_length_le]
    · exact stableSort_perm _ _
    · rw [(stableSort_perm (compareTokens f.sortBy) (filterStage f tokens)).length_eq]
      exact hlen

/-- C2 witness: the default filter configuration over a one-token store
satisfies the bound hypothesis and the exactness conclusion. -/
theorem filteredTokens_spec_witness :
    (filterStage defaultFilters [baseToken]).length ≤ defaultFilters.maxRecords ∧
    (projectTokens defaultFilters [baseToken]).Perm (filterStage defaultFilters [baseToken]) :=
  ⟨by decide, (filteredTokens_spec defaultFilters [baseToken]).2.2.2 (by decide)⟩

/-- C5: the sort stage is stable with the specified keys — filtering the
sorted stage to the records of any fixed sort-key value gives exactly the
same sequence as filtering its input, the projected output restricted to
one key value is a subsequence of the store snapshot restricted to that
value (relative order preserved end to end), and the safety score maps
safe to 2, warning to 1 and danger to 0. -/
theorem sortStage_stable (f : FilterState) (tokens : List Token) (q : ℚ) :
    ((stableSort (compareTokens f.sortBy) (filterStage f tokens)).filter
        (fun t => decide (sortKey f.sortBy t = q)) =
      (filterStage f tokens).filter (fun t => decide (sortKey f.sortBy t = q))) ∧
    ((projectTokens f tokens).filter (fun t => decide (sortKey f.sortBy t = q))).Sublist
      (tokens.filter (fun t => decide (sortKey f.sortBy t = q))) ∧
    (∀ t : Token, (t.riskLevel = .safe → getRiskScore t = 2) ∧
      (t.riskLevel = .warning → getRiskScore t = 1) ∧
      (t.riskLevel = .danger → getRiskScore t = 0)) := by
  have hstab := stableSort_filter (compareTokens f.sortBy) (sortKey f.sortBy)
    (compareTokens_eq_sortKey f.sortBy) (filterStage f tokens) q
  refine ⟨hstab, ?_, ?_⟩
  · have h1 : ((projectTokens f tokens).filter
        (fun t => decide (sortKey f.sortBy t = q))).Sublist
        ((stableSort (compareTokens f.sortBy) (filterStage f tokens)).filter
          (fun t => decide (sortKey f.sortBy t = q))) := by
      simp only [projectTokens]
      exact List.Sublist.filter _ (List.take_sublist _ _)
    rw [hstab] at h1
    have h2 : (filterStage f tokens).filter (fun t => decide (sortKey f.sortBy t = q)) =
        (tokens.filter (fun t => decide (sortKey f.sortBy t = q))).filter (passesFilters f) := by
      simp only [filterStage]
      rw [List.filter_filter, List.filter_filter]
      exact List.filter_congr fun a _ => Bool.and_comm _ _
    rw [h2] at h1
    exact h1.trans (List.filter_sublist _)
  · intro t
    refine ⟨fun h => ?_, fun h => ?_, fun h => ?_⟩ <;> simp [getRiskScore, h]

/-- C5 witness: the safety-score mapping evaluated on a concrete safe
token. -/
theorem sortStage_stable_witness :
    baseToken.riskLevel = .safe ∧ getRiskScore baseToken = 2 :=
  ⟨rfl, ((sortStage_stable defaultFilters [baseToken] 2).2.2 baseToken).1 rfl⟩

theorem olsSlope_eq (ys : List ℚ) :
    olsSlope ys =
      (∑ i in Finset.range ys.length,
          ((i : ℚ) - (∑ j in Finset.range ys.length, (j : ℚ)) / ys.length) *
            (ys.getD i 0 - (∑ j in Finset.range ys.length, ys.getD j 0) / ys.length)) /
        ∑ i in Finset.range ys.length,
          ((i : ℚ) - (∑ j in Finset.range ys.length, (j : ℚ)) / ys.length) ^ 2 := rfl

theorem centered_identity (n : ℕ) (hn : (n : ℚ) ≠ 0) (F G : ℕ → ℚ) :
    ∑ i in Finset.range n,
        (F i - (∑ j in Finset.range n, F j) / n) * (G i - (∑ j in Finset.range n, G j) / n) =
      (∑ i in Finset.range n, ∑ j in Finset.range n, (F i - F j) * (G i - G j)) / (2 * n) := by
  set A := ∑ j in Finset.range n, F j with hA
  set B := ∑ j in Finset.range n, G j with hB
  set P := ∑ j in Finset.range n, F j * G j with hP
  have expand : ∀ i, (F i - A / n) * (G i - B / n) =
      F i * G i - (B / n) * F i - (A / n) * G i + (A / n) * (B / n) := fun i => by ring
  have expand2 : ∀ i j, (F i - F j) * (G i - G j) =
      F i * G i - F i * G j - F j * G i + F j * G j := fun i j => by ring
  have hin : ∀ i ∈ Finset.range n,
      ∑ j in Finset.range n, (F i - F j) * (G i - G j) =
        (n : ℚ) * (F i * G i) - F i * B - A * G i + P := by
    intro i _
    rw [Finset.sum_congr rfl fun j _ => expand2 i j]
    rw [Finset.sum_add_distrib, Finset.sum_sub_distrib, Finset.sum_sub_distrib,
      Finset.sum_const, Finset.card_range, nsmul_eq_mul,
      ← Finset.mul_sum, ← Finset.sum_mul, ← hB, ← hA, ← hP]
  rw [Finset.sum_congr rfl hin]
  rw [Finset.sum_add_distrib, Finset.sum_sub_distrib, Finset.sum_sub_distrib,
    Finset.sum_const, Finset.card_range, nsmul_eq_mul,
    ← Finset.mul_sum, ← Finset.sum_mul, ← Finset.mul_sum, ← hA, ← hB, ← hP]
  rw [Finset.sum_congr rfl fun i _ => expand i]
  rw [Finset.sum_add_distrib, Finset.sum_sub_distrib, Finset.sum_sub_distrib,
    Finset.sum_const, Finset.card_range, nsmul_eq_mul,
    ← Finset.mul_sum, ← Finset.mul_sum, ← hA, ← hB, ← hP]
  field_simp
  ring

theorem den_pos (n : ℕ) (h2 : 2 ≤ n) :
    0 < ∑ i in Finset.range n,
      ((i : ℚ) - (∑ j in Finset.range n, (j : ℚ)) / n) ^ 2 := by
  apply Finset.sum_pos'
  · intro i _
    positivity
  · set m := (∑ j in Finset.range n, (j : ℚ)) / n with hm
    by_cases h : m = 0
    · refine ⟨1, Finset.mem_range.2 (by omega), ?_⟩
      rw [h]
      norm_num
    · refine ⟨0, Finset.mem_range.2 (by omega), ?_⟩
      have hne : (0 : ℚ) - m ≠ 0 := by simpa using h
      exact lt_of_le_of_ne (sq_nonneg _) (Ne.symm (pow_ne_zero 2 hne))

theorem step_ge (n : ℕ) (g : ℕ → ℚ) (δ : ℚ)
    (hinc : ∀ k, k + 1 < n → g k + δ ≤ g (k + 1)) :
    ∀ j i, j ≤ i → i < n → g j + δ * ((i : ℚ) - (j : ℚ)) ≤ g i := by
  intro j i
  induction i with
  | zero =>
    intro hji _
    have hj0 : j = 0 := Nat.le_zero.1 hji
    subst hj0
    simp
  | succ i ih =>
    intro hji hin
    by_cases hj : j = i + 1
    · subst hj
      simp
    · have hji2 : j ≤ i := Nat.lt_succ_iff.1 (lt_of_le_of_ne hji hj)
      have h1 := ih hji2 (lt_trans (Nat.lt_succ_self i) hin)
      have h2 := hinc i hin
      have hc : δ * (((i : ℕ) + 1 : ℚ) - (j : ℚ)) = δ * ((i : ℚ) - (j : ℚ)) + δ := by ring
      push_cast
      push_cast at h1
      linarith [hc ▸ le_refl (δ * (((i : ℕ) + 1 : ℚ) - (j : ℚ)))]

theorem pair_bound (n : ℕ) (g : ℕ → ℚ) (δ : ℚ)
    (hinc : ∀ k, k + 1 < n → g k + δ ≤ g (k + 1)) (i j : ℕ) (hi : i < n) (hj : j < n) :
    δ * (((i : ℚ) - (j : ℚ)) * ((i : ℚ) - (j : ℚ))) ≤ ((i : ℚ) - (j : ℚ)) * (g i - g j) := by
  rcases le_total j i with h | h
  · have hg := step_ge n g δ hinc j i h hi
    have hc : (0 : ℚ) ≤ (i : ℚ) - (j : ℚ) := sub_nonneg.2 (Nat.cast_le.2 h)
    nlinarith [hg, hc]
  · have hg := step_ge n g δ hinc i j h hj
    have hc : (0 : ℚ) ≤ (j : ℚ) - (i : ℚ) := sub_nonneg.2 (Nat.cast_le.2 h)
    nlinarith [hg, hc]

theorem centered_ge (n : ℕ) (h2 : 2 ≤ n) (g : ℕ → ℚ) (δ : ℚ)
    (hinc : ∀ k, k + 1 < n → g k + δ ≤ g (k + 1)) :
    δ * ∑ i in Finset.range n, ((i : ℚ) - (∑ j in Finset.range n, (j : ℚ)) / n) ^ 2 ≤
      ∑ i in Finset.range n,
        ((i : ℚ) - (∑ j in Finset.range n, (j : ℚ)) / n) *
          (g i - (∑ j in Finset.range n, g j) / n) := by
  have hn : (n : ℚ) ≠ 0 := Nat.cast_ne_zero.2 (by omega)
  have hden := centered_identity n hn (fun i => (i : ℚ)) (fun i => (i : ℚ))
  have hnum := centered_identity n hn (fun i => (i : ℚ)) g
  have hsq : ∀ i : ℕ, ((i : ℚ) - (∑ j in Finset.range n, (j : ℚ)) / n) ^ 2 =
      ((i : ℚ) - (∑ j in Finset.range n, (j : ℚ)) / n) *
        ((i : ℚ) - (∑ j in Finset.range n, (j : ℚ)) / n) := fun i => sq (((i : ℚ) - _)) ▸ by ring
  rw [Finset.sum_congr rfl fun i _ => hsq i, hden, hnum, ← mul_div_assoc]
  have h2n : (0 : ℚ) < 2 * n := by positivity
  rw [div_le_div_iff_of_pos_right h2n]
  rw [Finset.mul_sum]
  apply Finset.sum_le_sum
  intro i hi
  rw [Finset.mul_sum]
  apply Finset.sum_le_sum
  intro j hj
  exact pair_bound n g δ hinc i j (Finset.mem_range.1 hi) (Finset.mem_range.1 hj)

theorem olsSlope_ge (ys : List ℚ) (δ : ℚ) (h2 : 2 ≤ ys.length)
    (hinc : ∀ k, k + 1 < ys.length → ys.getD k 0 + δ ≤ ys.getD (k + 1) 0) :
    δ ≤ olsSlope ys := by
  rw [olsSlope_eq, le_div_iff₀ (den_pos ys.length h2)]
  exact centered_ge ys.length h2 (fun i => ys.getD i 0) δ hinc

theorem getD_map_neg (ys : List ℚ) (i : ℕ) :
    (ys.map (fun y => -y)).getD i 0 = -(ys.getD i 0) := by
  rcases h : ys[i]? with _ | y <;>
    simp [List.getD_eq_getElem?_getD, List.getElem?_map, h]

theorem olsSlope_neg (ys : List ℚ) :
    olsSlope (ys.map (fun y => -y)) = -olsSlope ys := by
  rw [olsSlope_eq, olsSlope_eq, List.length_map]
  have hmean : ∑ j in Finset.range ys.length, (ys.map (fun y => -y)).getD j 0 =
      -∑ j in Finset.range ys.length, ys.getD j 0 := by
    rw [← Finset.sum_neg_distrib]
    exact Finset.sum_congr rfl fun j _ => getD_map_neg ys j
  rw [hmean]
  have hterm : ∀ i ∈ Finset.range ys.length,
      ((i : ℚ) - (∑ j in Finset.range ys.length, (j : ℚ)) / ys.length) *
          ((ys.map (fun y => -y)).getD i 0 -
            (-∑ j in Finset.range ys.length, ys.getD j 0) / ys.length) =
        -(((i : ℚ) - (∑ j in Finset.range ys.length, (j : ℚ)) / ys.length) *
          (ys.getD i 0 - (∑ j in Finset.range ys.length, ys.getD j 0) / ys.length)) := by
    intro i _
    rw [getD_map_neg]
    ring
  rw [Finset.sum_congr rfl hterm, Finset.sum_neg_distrib, neg_div]

theorem olsSlope_le (ys : List ℚ) (δ : ℚ) (h2 : 2 ≤ ys.length)
    (hdec : ∀ k, k + 1 < ys.length → ys.getD (k + 1) 0 + δ ≤ ys.getD k 0) :
    olsSlope ys ≤ -δ := by
  have hlen : 2 ≤ (ys.map (fun y => -y)).length := by simpa using h2
  have hinc : ∀ k, k + 1 < (ys.map (fun y => -y)).length →
      (ys.map (fun y => -y)).getD k 0 + δ ≤ (ys.map (fun y => -y)).getD (k + 1) 0 := by
    intro k hk
    rw [List.length_map] at hk
    rw [getD_map_neg, getD_map_neg]
    have := hdec k hk
    linarith
  have h := olsSlope_ge (ys.map (fun y => -y)) δ hlen hinc
  rw [olsSlope_neg] at h
  linarith

theorem olsSlope_const (ys : List ℚ) (c : ℚ) (h : ∀ k < ys.length, ys.getD k 0 = c) :
    olsSlope ys = 0 := by
  rw [olsSlope_eq]
  rcases Nat.eq_zero_or_pos ys.length with h0 | hpos
  · simp [h0]
  · have hn : (ys.length : ℚ) ≠ 0 := Nat.cast_ne_zero.2 (by omega)
    have hsum : ∑ j in Finset.range ys.length, ys.getD j 0 = (ys.length : ℚ) * c := by
      rw [Finset.sum_congr rfl fun j hj => h j (Finset.mem_range.1 hj), Finset.sum_const,
        Finset.card_range, nsmul_eq_mul]
    rw [hsum]
    have hzero : ∀ i ∈ Finset.range ys.length,
        ((i : ℚ) - (∑ j in Finset.range ys.length, (j : ℚ)) / ys.length) *
          (ys.getD i 0 - (ys.length : ℚ) * c / ys.length) = 0 := by
      intro i hi
      rw [h i (Finset.mem_range.1 hi)]
      field_simp
    rw [Finset.sum_congr rfl hzero, Finset.sum_const, smul_zero, zero_div]

theorem insertSorted_of_head_le {α : Type} (cmp : α → α → ℚ) (x : α) (l : List α)
    (h : ∀ y ∈ l.head?, cmp x y ≤ 0) : insertSorted cmp x l = x :: l := by
  cases l with
  | nil => rfl
  | cons y ys =>
    have hy : cmp x y ≤ 0 := h y rfl
    simp [insertSorted, not_lt.2 hy]

theorem stableSort_of_sorted {α : Type} (cmp : α → α → ℚ) (l : List α)
    (hl : List.Chain' (fun a b => cmp a b ≤ 0) l) : stableSort cmp l = l := by
  induction l with
  | nil => rfl
  | cons x xs ih =>
    have hxs := (List.chain'_cons'.1 hl).2
    simp only [stableSort, ih hxs]
    exact insertSorted_of_head_le cmp x xs (List.chain'_cons'.1 hl).1

theorem sortByTimestamp_of_sorted (history : List HistoryPoint)
    (hs : List.Chain' (fun p q => p.timestamp ≤ q.timestamp) history) :
    sortByTimestamp history = history :=
  stableSort_of_sorted _ history (hs.imp fun _ _ hpq => sub_nonpos.2 hpq)

theorem chain'_getD_map (history : List HistoryPoint) (g : HistoryPoint → ℚ) (δ : ℚ)
    (h : List.Chain' (fun p q => g p + δ ≤ g q) history) :
    ∀ k, k + 1 < (history.map g).length →
      (history.map g).getD k 0 + δ ≤ (history.map g).getD (k + 1) 0 := by
  intro k hk
  rw [List.length_map] at hk
  have h1 : k < history.length := by omega
  have hget := List.chain'_iff_get.1 h k (by omega)
  rw [List.getD_eq_getElem?_getD, List.getElem?_map, List.getElem?_eq_getElem h1,
    List.getD_eq_getElem?_getD, List.getElem?_map, List.getElem?_eq_getElem hk]
  simpa [List.get_eq_getElem] using hget

theorem chain'_getD_map_rev (history : List HistoryPoint) (g : HistoryPoint → ℚ) (δ : ℚ)
    (h : List.Chain' (fun p q => g q + δ ≤ g p) history) :
    ∀ k, k + 1 < (history.map g).length →
      (history.map g).getD (k + 1) 0 + δ ≤ (history.map g).getD k 0 := by
  intro k hk
  rw [List.length_map] at hk
  have h1 : k < history.length := by omega
  have hget := List.chain'_iff_get.1 h k (by omega)
  rw [List.getD_eq_getElem?_getD, List.getElem?_map, List.getElem?_eq_getElem hk,
    List.getD_eq_getElem?_getD, List.getElem?_map, List.getElem?_eq_getElem h1]
  simpa [List.get_eq_getElem] using hget

theorem const_getD_map (history : List HistoryPoint) (g : HistoryPoint → ℚ) (c : ℚ)
    (h : ∀ p ∈ history, g p = c) :
    ∀ k < (history.map g).length, (history.map g).getD k 0 = c := by
  intro k hk
  rw [List.length_map] at hk
  rw [List.getD_eq_getElem?_getD, List.getElem?_map, List.getElem?_eq_getElem hk]
  simp [h _ (List.getElem_mem hk)]

theorem calculateTrend_eq (history : List HistoryPoint) (m : MetricKind) :
    calculateTrend history m =
      if history.length < 2 then .stagnant
      else if |olsSlope ((sortByTimestamp history).map (metricValue m))| < 1/20 then .stagnant
      else if olsSlope ((sortByTimestamp history).map (metricValue m)) > 0 then .up
      else .down := rfl

theorem specTrend_eq (history : List HistoryPoint) (m : MetricKind) :
    specTrend history m =
      if history.length < 2 then .stagnant
      else if |olsSlope (history.map (metricValue m))| < 1/20 then .stagnant
      else if olsSlope (history.map (metricValue m)) > 0 then .up
      else .down := rfl

/-- C3: over a time-ordered series, `calculateTrend` agrees with the
specified classifier — `stagnant` under two points, otherwise the
index-as-x ordinary-least-squares slope classified against the fixed 0.05
threshold (`|slope| < 0.05 ⇒ stagnant`, else the slope's sign decides). -/
theorem calculateTrend_spec (history : List HistoryPoint) (m : MetricKind)
    (hs : List.Chain' (fun p q => p.timestamp ≤ q.timestamp) history) :
    calculateTrend history m = specTrend history m ∧
    (history.length < 2 → calculateTrend history m = .stagnant) ∧
    (2 ≤ history.length →
      calculateTrend history m =
        (if |olsSlope (history.map (metricValue m))| < 1/20 then .stagnant
         else if olsSlope (history.map (metricValue m)) > 0 then .up
         else .down)) := by
  have hsort := sortByTimestamp_of_sorted history hs
  refine ⟨?_, fun h => ?_, fun h => ?_⟩
  · rw [calculateTrend_eq, specTrend_eq, hsort]
  · rw [calculateTrend_eq, if_pos h]
  · rw [calculateTrend_eq, hsort, if_neg (Nat.not_lt.2 h)]

theorem exHistory_sorted : sortByTimestamp exHistory = exHistory := by
  norm_num [sortByTimestamp, stableSort, insertSorted, exHistory]

theorem exHistory_slope : olsSlope (exHistory.map (metricValue .holders)) = 50 := by
  norm_num [olsSlope, exHistory, metricValue, Finset.sum_range_succ]

theorem exHistory_up : calculateTrend exHistory .holders = .up := by
  rw [calculateTrend_eq, exHistory_sorted, exHistory_slope]
  rw [if_neg (by norm_num [exHistory]),
    if_neg (by rw [abs_of_nonneg (by norm_num : (0:ℚ) ≤ 50)]; norm_num),
    if_pos (by norm_num)]

/-- C3 witness: the spec example series is time-ordered, the theorem
applies, and the trend is `up`. -/
theorem calculateTrend_spec_witness :
    calculateTrend exHistory .holders = specTrend exHistory .holders ∧
    calculateTrend exHistory .holders = .up :=
  ⟨(calculateTrend_spec exHistory .holders
      (by simp [exHistory, List.chain'_cons])).1,
   exHistory_up⟩

theorem smallIncHistory_sorted : sortByTimestamp smallIncHistory = smallIncHistory := by
  norm_num [sortByTimestamp, stableSort, insertSorted, smallIncHistory]

theorem smallIncHistory_slope :
    olsSlope (smallIncHistory.map (metricValue .liquidity)) = 1/100 := by
  norm_num [olsSlope, smallIncHistory, metricValue, Finset.sum_range_succ]

/-- C6 counterexample: a strictly increasing two-point liquidity series
whose trend is `stagnant`, not `up` (slope 1/100 under the 0.05
threshold). -/
theorem trendMonotonicity_counterexample :
    List.Chain' (fun p q => metricValue .liquidity p < metricValue .liquidity q)
      smallIncHistory ∧
    2 ≤ smallIncHistory.length ∧
    calculateTrend smallIncHistory .liquidity = .stagnant := by
  refine ⟨?_, by decide, ?_⟩
  · simp [smallIncHistory, List.chain'_cons, metricValue]
  · rw [calculateTrend_eq, smallIncHistory_sorted, smallIncHistory_slope]
    rw [if_neg (by norm_num [smallIncHistory]),
      if_pos (by rw [abs_of_nonneg (by norm_num : (0:ℚ) ≤ 1/100)]; norm_num)]

/-- C6 (amended): for a time-ordered series of at least two points, when
each consecutive increment of the selected metric is at least the 0.05
threshold the trend is `up`; when each consecutive decrement is at least
the threshold it is `down`; a constant series gives `stagnant`. -/
theorem trendMonotonicity_amended (history : List HistoryPoint) (m : MetricKind)
    (hs : List.Chain' (fun p q => p.timestamp ≤ q.timestamp) history)
    (h2 : 2 ≤ history.length) :
    (List.Chain' (fun p q => metricValue m p + 1/20 ≤ metricValue m q) history →
      calculateTrend history m = .up) ∧
    (List.Chain' (fun p q => metricValue m q + 1/20 ≤ metricValue m p) history →
      calculateTrend history m = .down) ∧
    ((∀ p ∈ history, ∀ q ∈ history, metricValue m p = metricValue m q) →
      calculateTrend history m = .stagnant) := by
  have hsort := sortByTimestamp_of_sorted history hs
  have hlen : ¬ history.length < 2 := Nat.not_lt.2 h2
  have hlen2 : 2 ≤ (history.map (metricValue m)).length := by simpa using h2
  refine ⟨fun hinc => ?_, fun hdec => ?_, fun hconst => ?_⟩
  · have hslope := olsSlope_ge (history.map (metricValue m)) (1/20) hlen2
      (chain'_getD_map history (metricValue m) (1/20) hinc)
    have habs : ¬ |olsSlope (history.map (metricValue m))| < 1/20 :=
      not_lt.2 (le_trans hslope (le_abs_self _))
    have hpos : olsSlope (history.map (metricValue m)) > 0 :=
      lt_of_lt_of_le (by norm_num) hslope
    rw [calculateTrend_eq, hsort, if_neg hlen, if_neg habs, if_pos hpos]
  · have hslope := olsSlope_le (history.map (metricValue m)) (1/20) hlen2
      (chain'_getD_map_rev history (metricValue m) (1/20) hdec)
    have habs : ¬ |olsSlope (history.map (metricValue m))| < 1/20 := by
      rw [abs_lt]
      rintro ⟨hA, hB⟩
      linarith
    have hneg : ¬ olsSlope (history.map (metricValue m)) > 0 := by linarith
    rw [calculateTrend_eq, hsort, if_neg hlen, if_neg habs, if_neg hneg]
  · rcases history with _ | ⟨p, rest⟩
    · simp at h2
    · have hc := const_getD_map (p :: rest) (metricValue m) (metricValue m p)
        (fun q hq => hconst q hq p (by simp))
      have hslope := olsSlope_const ((p :: rest).map (metricValue m)) (metricValue m p) hc
      have habs : |olsSlope ((p :: rest).map (metricValue m))| < 1/20 := by
        rw [hslope]
        norm_num
      rw [calculateTrend_eq, hsort, if_neg hlen, if_pos habs]

/-- C6 (amended) witness: the 100, 150, 200 holders series has increments
at least the threshold and yields `up`. -/
theorem trendMonotonicity_amended_witness :
    calculateTrend exHistory .holders = .up :=
  (trendMonotonicity_amended exHistory .holders
      (by simp [exHistory, List.chain'_cons]) (by decide)).1
    (by simp [exHistory, List.chain'_cons, metricValue]; norm_num)

theorem chartTrendDirection_eq (history : List HistoryPoint) (m : MetricKind) :
    chartTrendDirection history m =
      if (chartData history m).length < 2 then .stagnant
      else if olsSlope ((chartData history m).map Prod.snd) > 1/20 then .up
      else if olsSlope ((chartData history m).map Prod.snd) < -(1/20) then .down
      else .stagnant := rfl

theorem samplePoints_id (l : List HistoryPoint) (last : ℚ) (hlast : 0 ≤ last)
    (hfirst : ∀ p ∈ l.head?, last + 60000 ≤ p.timestamp)
    (hgap : List.Chain' (fun p q => p.timestamp + 60000 ≤ q.timestamp) l) :
    samplePoints l last = l := by
  induction l generalizing last with
  | nil => rfl
  | cons p rest ih =>
    have hp : last + 60000 ≤ p.timestamp := hfirst p rfl
    have hp0 : ¬ p.timestamp = 0 := by
      intro h
      rw [h] at hp
      linarith
    have hcond : p.timestamp - last ≥ 60000 := by linarith
    simp only [samplePoints, if_neg hp0, if_pos hcond]
    congr 1
    exact ih p.timestamp (by linarith) ((List.chain'_cons'.1 hgap).1)
      (List.chain'_cons'.1 hgap).2

theorem reducePoints_id (l : List HistoryPoint) (h : l.length ≤ 200) :
    reducePoints l = l := by
  simp only [reducePoints]
  rw [if_neg (by omega)]

theorem closeGap_sorted : sortByTimestamp closeGapHistory = closeGapHistory := by
  norm_num [sortByTimestamp, stableSort, insertSorted, closeGapHistory]

theorem closeGap_slope :
    olsSlope (closeGapHistory.map (metricValue .liquidity)) = 100 := by
  norm_num [olsSlope, closeGapHistory, metricValue, Finset.sum_range_succ]

theorem closeGap_list_up : calculateTrend closeGapHistory .liquidity = .up := by
  rw [calculateTrend_eq, closeGap_sorted, closeGap_slope]
  rw [if_neg (by norm_num [closeGapHistory]),
    if_neg (by rw [abs_of_nonneg (by norm_num : (0:ℚ) ≤ 100)]; norm_num),
    if_pos (by norm_num)]

theorem closeGap_chart_stagnant :
    chartTrendDirection closeGapHistory .liquidity = .stagnant := by
  have hsample : samplePoints (sortByTimestamp closeGapHistory) 0 =
      [(⟨60000, 0, 0⟩ : HistoryPoint)] := by
    rw [closeGap_sorted]
    norm_num [samplePoints, closeGapHistory]
  have hlen : (chartData closeGapHistory .liquidity).length = 1 := by
    simp [chartData, hsample, reducePoints]
  rw [chartTrendDirection_eq,
    if_pos (show (chartData closeGapHistory .liquidity).length < 2 by rw [hlen]; norm_num)]

/-- C10 counterexample: on two valid points 30 seconds apart the list's
calculator regresses both and reports `up`, while the chart's sampling
drops the second point and reports `stagnant`. -/
theorem chartTrend_counterexample :
    calculateTrend closeGapHistory .liquidity = .up ∧
    chartTrendDirection closeGapHistory .liquidity = .stagnant :=
  ⟨closeGap_list_up, closeGap_chart_stagnant⟩

/-- C10 (amended): the two trend implementations agree on every series the
chart's preprocessing leaves intact — consecutive points at least 60
seconds apart, first timestamp at least 60000 ms, at most 200 points —
whose OLS slope is not exactly ±0.05 (at those boundary slopes the strict
and non-strict threshold comparisons disagree). -/
theorem chartTrend_amended (history : List HistoryPoint) (m : MetricKind)
    (hgap : List.Chain' (fun p q => p.timestamp + 60000 ≤ q.timestamp) history)
    (hfirst : ∀ p ∈ history.head?, (60000 : ℚ) ≤ p.timestamp)
    (hlen : history.length ≤ 200)
    (hup : olsSlope (history.map (metricValue m)) ≠ 1/20)
    (hdown : olsSlope (history.map (metricValue m)) ≠ -(1/20)) :
    calculateTrend history m = chartTrendDirection history m := by
  have hs : List.Chain' (fun p q => p.timestamp ≤ q.timestamp) history :=
    hgap.imp fun _ _ h => by linarith
  have hsort := sortByTimestamp_of_sorted history hs
  have hsample : samplePoints (sortByTimestamp history) 0 = history := by
    rw [hsort]
    exact samplePoints_id history 0 le_rfl
      (fun p hp => by have := hfirst p hp; linarith) hgap
  have hchart : chartData history m =
      history.map (fun p => (Int.floor (p.timestamp / 1000), metricValue m p)) := by
    rw [chartData, hsample, reducePoints_id history hlen]
  have hys : (chartData history m).map Prod.snd = history.map (metricValue m) := by
    rw [hchart, List.map_map]
    rfl
  have hlen2 : (chartData history m).length = history.length := by
    rw [hchart, List.length_map]
  rw [calculateTrend_eq, chartTrendDirection_eq, hsort, hys, hlen2]
  by_cases hl2 : history.length < 2
  · rw [if_pos hl2, if_pos hl2]
  · rw [if_neg hl2, if_neg hl2]
    set s := olsSlope (history.map (metricValue m)) with hsdef
    by_cases habs : |s| < 1/20
    · have hA : ¬ s > 1/20 := not_lt.2 (le_of_lt (abs_lt.1 habs).2)
      have hB : ¬ s < -(1/20) := not_lt.2 (le_of_lt (abs_lt.1 habs).1)
      rw [if_pos habs, if_neg hA, if_neg hB]
    · rw [if_neg habs]
      rcases le_abs.1 (not_lt.1 habs) with hge | hle
      · have hgt : s > 1/20 := lt_of_le_of_ne hge (Ne.symm hup)
        rw [if_pos (by linarith : s > 0), if_pos hgt]
      · have hlt : s < -(1/20) := lt_of_le_of_ne (by linarith) hdown
        rw [if_neg (by linarith : ¬ s > 0), if_neg (by linarith : ¬ s > 1/20),
          if_pos hlt]

theorem wideGap_slope :
    olsSlope (wideGapHistory.map (metricValue .holders)) = 100 := by
  norm_num [olsSlope, wideGapHistory, metricValue, Finset.sum_range_succ]

/-- C10 (amended) witness: both implementations classify the witness
series identically. -/
theorem chartTrend_amended_witness :
    calculateTrend wideGapHistory .holders = chartTrendDirection wideGapHistory .holders :=
  chartTrend_amended wideGapHistory .holders
    (by simp [wideGapHistory, List.chain'_cons]; norm_num)
    (by rintro p hp
        simp [wideGapHistory] at hp
        rw [← hp])
    (by decide)
    (by rw [wideGap_slope]; norm_num)
    (by rw [wideGap_slope]; norm_num)

/-- C8: every filter-state update leaves the measured-height map completely
empty (no row index has a recorded height any more), resets the scroll
offset to the top, and installs and persists the updated filters. -/
theorem updateFilters_spec (st : UIState) (upd : FilterState → FilterState) :
    (∀ i, lookupHeight (updateFilters st upd).measuredHeights i = none) ∧
    (updateFilters st upd).scrollTop = 0 ∧
    (updateFilters st upd).filters = upd st.filters ∧
    (updateFilters st upd).persistedFilters = some (upd st.filters) :=
  ⟨fun _ => rfl, rfl, rfl, rfl⟩

theorem lookupHeight_removeHeight (m : List (ℕ × ℚ)) (i : ℕ) :
    lookupHeight (removeHeight m i) i = none := by
  induction m with
  | nil => rfl
  | cons p rest ih =>
    obtain ⟨j, h⟩ := p
    by_cases hj : j = i
    · simpa [removeHeight, List.filter_cons, hj] using ih
    · simp only [removeHeight, List.filter_cons] at ih ⊢
      simp [hj, lookupHeight, ih]

/-- C7 counterexample: expanding row 0 (above the viewport) does not keep
the same rows visible — the handler scrolls to the clicked row, so the
visible set changes from row 2 to row 0. -/
theorem scrollPreservation_counterexample :
    startOffset cexUIState 0 + estimateSize cexUIState 0 ≤ cexUIState.scrollTop ∧
    visibleRows cexUIState 42 = [2] ∧
    visibleRows (handleTokenClick cexUIState "0xa") 42 = [0] ∧
    visibleRows (handleTokenClick cexUIState "0xa") 42 ≠ visibleRows cexUIState 42 := by
  have hscroll : cexUIState.scrollTop = 84 := rfl
  have he0 : estimateSize cexUIState 0 = 42 := rfl
  have he1 : estimateSize cexUIState 1 = 42 := rfl
  have he2 : estimateSize cexUIState 2 = 42 := rfl
  have hs0 : startOffset cexUIState 0 = 0 := by simp [startOffset]
  have hs1 : startOffset cexUIState 1 = 42 := by
    norm_num [startOffset, Finset.sum_range_succ, Finset.sum_range_zero, he0]
  have hs2 : startOffset cexUIState 2 = 84 := by
    norm_num [startOffset, Finset.sum_range_succ, Finset.sum_range_zero, he0, he1]
  have hclick : handleTokenClick cexUIState "0xa" = cexUIStateAfter := rfl
  have hf0 : estimateSize cexUIStateAfter 0 = 800 := rfl
  have hf1 : estimateSize cexUIStateAfter 1 = 42 := rfl
  have hf2 : estimateSize cexUIStateAfter 2 = 42 := rfl
  have hg0 : startOffset cexUIStateAfter 0 = 0 := by simp [startOffset]
  have hg1 : startOffset cexUIStateAfter 1 = 800 := by
    norm_num [startOffset, Finset.sum_range_succ, Finset.sum_range_zero, hf0]
  have hg2 : startOffset cexUIStateAfter 2 = 842 := by
    norm_num [startOffset, Finset.sum_range_succ, Finset.sum_range_zero, hf0, hf1]
  have hscroll2 : cexUIStateAfter.scrollTop = 0 := rfl
  have hrange : List.range cexUIState.tokens.length = [0, 1, 2] := rfl
  have hrange2 : List.range cexUIStateAfter.tokens.length = [0, 1, 2] := rfl
  have hv1 : visibleRows cexUIState 42 = [2] := by
    simp only [visibleRows, hrange]
    norm_num [List.filter_cons, List.filter_nil, hs0, hs1, hs2, he0, he1, he2, hscroll]
  have hv2 : visibleRows (handleTokenClick cexUIState "0xa") 42 = [0] := by
    rw [hclick]
    simp only [visibleRows, hrange2]
    norm_num [List.filter_cons, List.filter_nil, hg0, hg1, hg2, hf0, hf1, hf2, hscroll2]
  refine ⟨by rw [hs0, he0, hscroll]; norm_num, hv1, hv2, by rw [hv1, hv2]; decide⟩

/-- C7 (amended): toggling a row's expansion does not preserve the scroll
offset; the handler aligns the clicked row to the viewport start instead:
after `handleTokenClick` the scroll offset equals the clicked row's start
offset in the re-measured layout, the clicked address's expansion state is
inverted, and the clicked row's measured height is dropped (the offset
read before the remap is never reapplied). -/
theorem scrollToIndex_amended (st : UIState) (addr : String) (i : ℕ)
    (hidx : st.tokens.findIdx? (fun t => decide (t.tokenAddress = addr)) = some i) :
    (handleTokenClick st addr).scrollTop =
      startOffset { st with expanded := toggleExpansion st.expanded addr,
                            measuredHeights := removeHeight st.measuredHeights i } i ∧
    (addr ∈ (handleTokenClick st addr).expanded ↔ addr ∉ st.expanded) ∧
    lookupHeight (handleTokenClick st addr).measuredHeights i = none := by
  refine ⟨?_, ?_, ?_⟩
  · simp only [handleTokenClick, hidx]
  · simp only [handleTokenClick, hidx]
    by_cases haddr : addr ∈ st.expanded <;>
      simp [toggleExpansion, haddr, List.mem_filter]
  · simp only [handleTokenClick, hidx]
    exact lookupHeight_removeHeight _ _

/-- C7 (amended) witness: clicking the first row of the counterexample
state. -/
theorem scrollToIndex_amended_witness :
    (handleTokenClick cexUIState "0xa").scrollTop =
      startOffset { cexUIState with expanded := toggleExpansion cexUIState.expanded "0xa",
                                    measuredHeights := removeHeight cexUIState.measuredHeights 0 } 0 ∧
    ("0xa" ∈ (handleTokenClick cexUIState "0xa").expanded ↔ "0xa" ∉ cexUIState.expanded) ∧
    lookupHeight (handleTokenClick cexUIState "0xa").measuredHeights 0 = none :=
  scrollToIndex_amended cexUIState "0xa" 0 (by decide)

end Site37
